import Mathlib

/-!
Verification of the `headache` Brainfuck implementation.

This file embeds the optimizing parser (`src/parser.rs`, function `parse`)
and the tree-walking interpreter (`src/executor.rs`, `Executor::_execute`)
as Lean functions, together with a small control-flow model of the JIT
driver (`src/compiler.rs`, `compile` and `Executable::run`), and proves
properties of the embedded code.

Conventions of the embedding:
* Rust `u8` cell values are `Nat` kept below 256 by explicit `% 256`
  (the code uses `Wrapping<u8>`).
* Rust `isize` offsets are unbounded `Int` (fusion arithmetic never
  overflows an `isize` for any physically representable source text);
  the Rust truncating remainder `%` on `isize` is `Int.tmod`.
* The parser's stack of contexts `Vec<Vec<Instruction>>` is split into the
  top context and the list of enclosing contexts, each stored with the
  most recently pushed instruction first (so Rust's `last_mut` is the list
  head, and a finished context is reversed before it is returned).
* The interpreter runs on explicit fuel, consumed once per loop
  iteration; `ExecResult.outOfFuel` is the fuel running out, which the
  real program does not have (its loops just keep running).
-/

namespace Headache

/-- Instruction set of the optimized IR. Modelled from the spec: the fused
`Instruction` enum itself is declared in a file absent from `src/`
(the `instruction.rs` present there is the superseded naive opcode set),
but every variant and its field type is pinned by the uses in
`src/parser.rs` and `src/executor.rs`: `Move(isize)`, `Add(u8)`, `Write`,
`Read`, `Loop(Vec<Instruction>)`, `Clear`, `AddTo { offset: isize }`. -/
inductive Instruction where
  | move (delta : Int)
  | add (n : Nat)
  | write
  | read
  | loop (body : List Instruction)
  | clear
  | addTo (offset : Int)

/-- Parser errors, from `src/parser.rs`. -/
inductive ParserError where
  | incompleteLoop
  | unexpectedToken
deriving DecidableEq

/-- Parser state: the current (top) context and the stack of enclosing
contexts, innermost first. Each context lists its instructions most
recently pushed first. Rust's `contexts` vector is never empty (the `]`
branch errors out instead of popping the outermost context), which this
representation makes structural. -/
structure PState where
  top : List Instruction
  rest : List (List Instruction)

/-- Loop-body recognition of the `]` arm (`src/parser.rs` lines 86-98):
given the just-closed body (in program order) and the enclosing context,
produce the new enclosing context. A body `[Add(n)]` with `n` odd becomes
`Clear` and the `continue` skips the `Loop` push; the move idiom pushes
`AddTo(x)` but then falls through, so `Loop(body)` is pushed as well; any
other body is pushed back as `Loop(body)`. -/
def closeTop (body outer : List Instruction) : List Instruction :=
  match body with
  | [.add n] =>
    if n &&& 1 = 1 then .clear :: outer
    else .loop body :: outer
  | [.add 255, .move x, .add 1, .move y] =>
    if x = -y then .loop body :: .addTo x :: outer
    else .loop body :: outer
  | _ => .loop body :: outer

/-- One character of `parse`'s loop body (`src/parser.rs` lines 43-106).
Every branch mirrors the corresponding `match char` arm, including the
`AddTo` recognition falling through to also push `Loop(body)`. -/
def parseStep (s : PState) (c : Char) : Except ParserError PState :=
  if c = '>' then
    .ok (match s.top with
      | .move n :: t => ⟨.move (n + 1) :: t, s.rest⟩
      | t => ⟨.move 1 :: t, s.rest⟩)
  else if c = '<' then
    .ok (match s.top with
      | .move n :: t => ⟨.move (n - 1) :: t, s.rest⟩
      | t => ⟨.move (-1) :: t, s.rest⟩)
  else if c = '+' then
    .ok (match s.top with
      | .add n :: t => ⟨.add ((n + 1) % 256) :: t, s.rest⟩
      | t => ⟨.add 1 :: t, s.rest⟩)
  else if c = '-' then
    .ok (match s.top with
      | .add n :: t => ⟨.add ((n + 255) % 256) :: t, s.rest⟩
      | t => ⟨.add 255 :: t, s.rest⟩)
  else if c = '.' then .ok ⟨.write :: s.top, s.rest⟩
  else if c = ',' then .ok ⟨.read :: s.top, s.rest⟩
  else if c = '[' then .ok ⟨[], s.top :: s.rest⟩
  else if c = ']' then
    match s.rest with
    | [] => .error .unexpectedToken
    | outer :: rs => .ok ⟨closeTop s.top.reverse outer, rs⟩
  else .ok s

/-- Folding `parseStep` over the source characters. -/
def parseChars : List Char → PState → Except ParserError PState
  | [], s => .ok s
  | c :: cs, s =>
    match parseStep s c with
    | .ok s' => parseChars cs s'
    | .error e => .error e

/-- The parser `parse` of `src/parser.rs`: run the character loop from the
single pre-created context, then fail with `IncompleteLoop` when more than
one context remains open (`contexts.len() != 1`). -/
def parse (source : List Char) : Except ParserError (List Instruction) :=
  match parseChars source ⟨[], []⟩ with
  | .error e => .error e
  | .ok s =>
    match s.rest with
    | [] => .ok s.top.reverse
    | _ :: _ => .error .incompleteLoop

/-- The eight Brainfuck command characters; everything else is a comment
(`_ => continue` in `src/parser.rs`). -/
def isCommand (c : Char) : Bool :=
  c == '>' || c == '<' || c == '+' || c == '-' || c == '.' || c == ',' || c == '[' || c == ']'

/-- MEMORY_SIZE of `src/executor.rs`. -/
def MEMORY_SIZE : Nat := 30000

/-- Interpreter state (`Executor` of `src/executor.rs`): the tape (a total
function, meaningful on indices below 30000), the data-pointer index, and
the two byte streams. -/
structure EState where
  memory : Nat → Nat
  index : Nat
  input : List Nat
  output : List Nat

/-- Pointwise tape update. -/
def setMem (m : Nat → Nat) (i v : Nat) : Nat → Nat :=
  fun j => if j = i then v else m j

/-- Index arithmetic of `Move` and `AddTo` in `Executor::_execute`:
`let delta = (MEMORY_SIZE as isize + delta % MEMORY_SIZE as isize) as usize;
(index + delta) % MEMORY_SIZE`; `%` on `isize` is the truncating remainder
`Int.tmod`, and the `as usize` cast is `Int.toNat` (the operand is always
in `(0, 60000)`). -/
def moveIndex (index : Nat) (delta : Int) : Nat :=
  (index + (30000 + Int.tmod delta 30000).toNat) % 30000

/-- Result of running the interpreter with fuel. -/
inductive ExecResult where
  | ok (st : EState)
  | runtimeError
  | outOfFuel

mutual

/-- One instruction of `Executor::_execute` (`src/executor.rs` lines
108-141). `Write` appends the cell byte to the output list (the `flush`
is invisible to a byte-list stream); `Read` with empty input is
`read_exact` failing at EOF, a `RuntimeError`. -/
def execIns : Nat → Instruction → EState → ExecResult
  | _, .move d, st => .ok { st with index := moveIndex st.index d }
  | _, .add n, st =>
    .ok { st with memory := setMem st.memory st.index ((st.memory st.index + n) % 256) }
  | _, .write, st => .ok { st with output := st.output ++ [st.memory st.index] }
  | _, .read, st =>
    match st.input with
    | [] => .runtimeError
    | b :: bs => .ok { st with memory := setMem st.memory st.index b, input := bs }
  | _, .clear, st => .ok { st with memory := setMem st.memory st.index 0 }
  | _, .addTo off, st =>
    let t := moveIndex st.index off
    let m1 := setMem st.memory t ((st.memory t + st.memory st.index) % 256)
    .ok { st with memory := setMem m1 st.index 0 }
  | 0, .loop _, st =>
    if st.memory st.index = 0 then .ok st else .outOfFuel
  | fuel + 1, .loop body, st =>
    if st.memory st.index = 0 then .ok st
    else
      match execList fuel body st with
      | .ok st' => execIns fuel (.loop body) st'
      | r => r
termination_by fuel i _ => (fuel, sizeOf i)

/-- The instruction sequence loop of `Executor::_execute`. -/
def execList : Nat → List Instruction → EState → ExecResult
  | _, [], st => .ok st
  | fuel, i :: rest, st =>
    match execIns fuel i st with
    | .ok st' => execList fuel rest st'
    | r => r
termination_by fuel l _ => (fuel, sizeOf l)

end

/-- Fresh interpreter state (`Executor::new`): zeroed tape, index 0. -/
def Executor.new (input : List Nat) : EState :=
  ⟨fun _ => 0, 0, input, []⟩

/-- Data-pointer index of a successful execution result. -/
def resultIndex : ExecResult → Option Nat
  | .ok st => some st.index
  | _ => none

/-- Tape cell of a successful execution result. -/
def resultMem : ExecResult → Nat → Option Nat
  | .ok st, i => some (st.memory i)
  | _, _ => none

/-! Arithmetic facts about the index normalization. -/

lemma moveIndex_cast (p : Nat) (d : Int) :
    ((moveIndex p d : Nat) : Int) = ((p : Int) + d) % 30000 := by
  cases d with
  | ofNat m =>
    rw [moveIndex, show (Int.ofNat m) = ((m : Nat) : Int) from rfl,
      show (30000 : Int) = ((30000 : Nat) : Int) from rfl, ← Int.ofNat_tmod]
    omega
  | negSucc m =>
    rw [moveIndex, show Int.tmod (Int.negSucc m) 30000 = -(((m + 1) % 30000 : Nat) : Int) from rfl,
      Int.negSucc_eq]
    omega

lemma moveIndex_lt (p : Nat) (d : Int) : moveIndex p d < 30000 :=
  Nat.mod_lt _ (by decide)

lemma moveIndex_ofNat (p q : Nat) : moveIndex p (q : Int) = (p + q) % 30000 := by
  have h := moveIndex_cast p (q : Int)
  omega

lemma moveIndex_roundtrip (p : Nat) (d : Int) (hp : p < 30000) :
    moveIndex (moveIndex p d) (-d) = p := by
  have h1 := moveIndex_cast p d
  have h2 := moveIndex_cast (moveIndex p d) (-d)
  omega

/-! Unfolding lemmas for the interpreter. -/

lemma execList_nil (fuel : Nat) (st : EState) : execList fuel [] st = .ok st := by
  simp [execList]

lemma execList_cons (fuel : Nat) (i : Instruction) (rest : List Instruction) (st : EState) :
    execList fuel (i :: rest) st =
      match execIns fuel i st with
      | .ok st' => execList fuel rest st'
      | r => r := by
  simp [execList]

lemma execIns_loop_exit (fuel : Nat) (body : List Instruction) (st : EState)
    (h : st.memory st.index = 0) : execIns fuel (.loop body) st = .ok st := by
  cases fuel <;> simp [execIns, h]

lemma execIns_clear (fuel : Nat) (st : EState) :
    execIns fuel .clear st = .ok { st with memory := setMem st.memory st.index 0 } := by
  simp [execIns]

lemma execIns_add (fuel : Nat) (n : Nat) (st : EState) :
    execIns fuel (.add n) st =
      .ok { st with memory := setMem st.memory st.index ((st.memory st.index + n) % 256) } := by
  simp [execIns]

lemma execIns_move (fuel : Nat) (d : Int) (st : EState) :
    execIns fuel (.move d) st = .ok { st with index := moveIndex st.index d } := by
  simp [execIns]

lemma execIns_addTo (fuel : Nat) (off : Int) (st : EState) :
    execIns fuel (.addTo off) st =
      .ok { st with memory := setMem (setMem st.memory (moveIndex st.index off) ((st.memory (moveIndex st.index off) + st.memory st.index) % 256)) st.index 0 } := by
  simp [execIns]

lemma setMem_same (m : Nat → Nat) (i v : Nat) : setMem m i v i = v := by
  simp [setMem]

lemma setMem_other (m : Nat → Nat) (i v j : Nat) (h : j ≠ i) : setMem m i v j = m j := by
  simp [setMem, h]

/-! Basic lemmas about the parser's character loop. -/

lemma parseChars_append (xs ys : List Char) (s : PState) :
    parseChars (xs ++ ys) s =
      match parseChars xs s with
      | .ok s' => parseChars ys s'
      | .error e => .error e := by
  induction xs generalizing s with
  | nil => simp [parseChars]
  | cons c cs ih =>
    simp only [List.cons_append, parseChars]
    cases parseStep s c with
    | ok s' => exact ih s'
    | error e => rfl

lemma parseStep_comment (s : PState) (c : Char) (h : isCommand c = false) :
    parseStep s c = .ok s := by
  simp only [isCommand, Bool.or_eq_false_iff, beq_eq_false_iff_ne, ne_eq] at h
  obtain ⟨⟨⟨⟨⟨⟨⟨h1, h2⟩, h3⟩, h4⟩, h5⟩, h6⟩, h7⟩, h8⟩ := h
  simp [parseStep, h1, h2, h3, h4, h5, h6, h7, h8]

lemma parseChars_gtRun (k : Nat) :
    ∀ (n : Int) (t : List Instruction) (r : List (List Instruction)),
    parseChars (List.replicate k '>') ⟨.move n :: t, r⟩ = .ok ⟨.move (n + k) :: t, r⟩ := by
  induction k with
  | zero => intro n t r; simp [parseChars]
  | succ k ih =>
    intro n t r
    rw [List.replicate_succ]
    have step : parseChars ('>' :: List.replicate k '>') ⟨.move n :: t, r⟩ =
        parseChars (List.replicate k '>') ⟨.move (n + 1) :: t, r⟩ := rfl
    rw [step, ih (n + 1) t r]
    have harith : n + 1 + (k : Int) = n + ((k + 1 : Nat) : Int) := by push_cast; ring
    rw [harith]

lemma parseChars_ltRun (k : Nat) :
    ∀ (n : Int) (t : List Instruction) (r : List (List Instruction)),
    parseChars (List.replicate k '<') ⟨.move n :: t, r⟩ = .ok ⟨.move (n - k) :: t, r⟩ := by
  induction k with
  | zero => intro n t r; simp [parseChars]
  | succ k ih =>
    intro n t r
    rw [List.replicate_succ]
    have step : parseChars ('<' :: List.replicate k '<') ⟨.move n :: t, r⟩ =
        parseChars (List.replicate k '<') ⟨.move (n - 1) :: t, r⟩ := rfl
    rw [step, ih (n - 1) t r]
    have harith : n - 1 - (k : Int) = n - ((k + 1 : Nat) : Int) := by push_cast; ring
    rw [harith]

lemma parseChars_plusRun (k : Nat) :
    ∀ (n : Nat) (t : List Instruction) (r : List (List Instruction)), n < 256 →
    parseChars (List.replicate k '+') ⟨.add n :: t, r⟩ = .ok ⟨.add ((n + k) % 256) :: t, r⟩ := by
  induction k with
  | zero =>
    intro n t r hn
    simp [parseChars, Nat.mod_eq_of_lt hn]
  | succ k ih =>
    intro n t r hn
    rw [List.replicate_succ]
    have step : parseChars ('+' :: List.replicate k '+') ⟨.add n :: t, r⟩ =
        parseChars (List.replicate k '+') ⟨.add ((n + 1) % 256) :: t, r⟩ := rfl
    rw [step, ih ((n + 1) % 256) t r (Nat.mod_lt _ (by decide))]
    have harith : ((n + 1) % 256 + k) % 256 = (n + (k + 1)) % 256 := by omega
    rw [harith]

lemma parse_plusRun (m : Nat) (hm : 1 ≤ m) :
    parse (List.replicate m '+') = .ok [.add (m % 256)] := by
  obtain ⟨m', rfl⟩ : ∃ m', m = m' + 1 := ⟨m - 1, by omega⟩
  rw [List.replicate_succ]
  unfold parse
  have step : parseChars ('+' :: List.replicate m' '+') ⟨[], []⟩ =
      parseChars (List.replicate m' '+') ⟨[.add 1], []⟩ := rfl
  rw [step, parseChars_plusRun m' 1 [] [] (by decide)]
  have harith : (1 + m') % 256 = (m' + 1) % 256 := by omega
  rw [harith]
  rfl

/-! Depth-based characterization of the parser's two errors (the spec side
of claim C4). `d` counts the currently open loops, i.e. the context-stack
depth minus one: a `]` read at `d = 0` is a stray close, and running out
of input at `d > 0` leaves a loop open. -/

/-- Outcome of scanning only the bracket structure of a source text. -/
inductive BracketResult where
  | balanced
  | strayClose
  | openLeft
deriving DecidableEq

/-- Bracket scanner following the spec's wording for the two parse errors:
it tracks how many loops are open and reports the first stray `]`, or
whether input ends with a loop still open. -/
def bracketScan : List Char → Nat → BracketResult
  | [], 0 => .balanced
  | [], _ + 1 => .openLeft
  | c :: cs, d =>
    if c = '[' then bracketScan cs (d + 1)
    else if c = ']' then
      match d with
      | 0 => .strayClose
      | d' + 1 => bracketScan cs d'
    else bracketScan cs d

lemma parseStep_open (s : PState) : parseStep s '[' = .ok ⟨[], s.top :: s.rest⟩ := rfl

lemma parseStep_close_empty (s : PState) (h : s.rest = []) :
    parseStep s ']' = .error .unexpectedToken := by
  show (match s.rest with
    | [] => Except.error ParserError.unexpectedToken
    | outer :: rs => .ok (⟨closeTop s.top.reverse outer, rs⟩ : PState)) = .error .unexpectedToken
  rw [h]

lemma parseStep_close_cons (s : PState) (outer : List Instruction)
    (rs : List (List Instruction)) (h : s.rest = outer :: rs) :
    parseStep s ']' = .ok ⟨closeTop s.top.reverse outer, rs⟩ := by
  show (match s.rest with
    | [] => Except.error ParserError.unexpectedToken
    | outer :: rs => .ok (⟨closeTop s.top.reverse outer, rs⟩ : PState)) =
      .ok ⟨closeTop s.top.reverse outer, rs⟩
  rw [h]

lemma parseStep_other (s : PState) (c : Char) (h1 : c ≠ '[') (h2 : c ≠ ']') :
    ∃ top', parseStep s c = .ok ⟨top', s.rest⟩ := by
  unfold parseStep
  rw [if_neg h1, if_neg h2]
  split_ifs with e1 e2 e3 e4 e5 e6
  · rcases s.top with _ | ⟨i, t⟩
    · exact ⟨_, rfl⟩
    · cases i <;> exact ⟨_, rfl⟩
  · rcases s.top with _ | ⟨i, t⟩
    · exact ⟨_, rfl⟩
    · cases i <;> exact ⟨_, rfl⟩
  · rcases s.top with _ | ⟨i, t⟩
    · exact ⟨_, rfl⟩
    · cases i <;> exact ⟨_, rfl⟩
  · rcases s.top with _ | ⟨i, t⟩
    · exact ⟨_, rfl⟩
    · cases i <;> exact ⟨_, rfl⟩
  · exact ⟨_, rfl⟩
  · exact ⟨_, rfl⟩
  · exact ⟨s.top, rfl⟩

/-- Total correspondence between the parser's run and the bracket scan:
the scan's verdict determines whether `parseChars` errors (with
`UnexpectedToken`) and, when it succeeds, whether any context is still
open. -/
lemma parseChars_bracket : ∀ (cs : List Char) (s : PState),
    match bracketScan cs s.rest.length with
    | .strayClose => parseChars cs s = .error .unexpectedToken
    | .balanced => ∃ s', parseChars cs s = .ok s' ∧ s'.rest.length = 0
    | .openLeft => ∃ s', parseChars cs s = .ok s' ∧ s'.rest.length ≠ 0 := by
  intro cs
  induction cs with
  | nil =>
    intro s
    rcases h : s.rest with _ | ⟨l, ls⟩
    · simp only [bracketScan, h, List.length_nil]
      exact ⟨s, rfl, by rw [h]; rfl⟩
    · simp only [bracketScan, h, List.length_cons]
      exact ⟨s, rfl, by rw [h]; simp⟩
  | cons c cs ih =>
    intro s
    by_cases hc1 : c = '['
    · subst hc1
      have hscan : bracketScan ('[' :: cs) s.rest.length = bracketScan cs (s.rest.length + 1) := by
        simp [bracketScan]
      have hrun : parseChars ('[' :: cs) s = parseChars cs ⟨[], s.top :: s.rest⟩ := by
        simp [parseChars, parseStep_open]
      rw [hscan, hrun]
      have := ih ⟨[], s.top :: s.rest⟩
      simpa using this
    · by_cases hc2 : c = ']'
      · subst hc2
        rcases h : s.rest with _ | ⟨outer, rs⟩
        · have hscan : bracketScan (']' :: cs) ([] : List (List Instruction)).length =
              .strayClose := by
            simp [bracketScan]
          rw [hscan]
          simp [parseChars, parseStep_close_empty s h]
        · have hstep := parseStep_close_cons s outer rs h
          have hscan : bracketScan (']' :: cs) ((outer :: rs) : List (List Instruction)).length =
              bracketScan cs rs.length := by
            simp [bracketScan]
          have hrun : parseChars (']' :: cs) s =
              parseChars cs ⟨closeTop s.top.reverse outer, rs⟩ := by
            simp [parseChars, hstep]
          rw [hscan, hrun]
          have := ih ⟨closeTop s.top.reverse outer, rs⟩
          simpa using this
      · obtain ⟨top', hstep⟩ := parseStep_other s c hc1 hc2
        have hscan : bracketScan (c :: cs) s.rest.length = bracketScan cs s.rest.length := by
          simp [bracketScan, hc1, hc2]
        have hrun : parseChars (c :: cs) s = parseChars cs ⟨top', s.rest⟩ := by
          simp [parseChars, hstep]
        rw [hscan, hrun]
        have := ih ⟨top', s.rest⟩
        simpa using this

/-- Comment characters are skipped without touching the parser state, so
filtering them away first does not change the run. -/
lemma parseChars_filter : ∀ (cs : List Char) (s : PState),
    parseChars (cs.filter isCommand) s = parseChars cs s := by
  intro cs
  induction cs with
  | nil => intro s; rfl
  | cons c cs ih =>
    intro s
    cases hc : isCommand c with
    | true =>
      rw [List.filter_cons_of_pos hc]
      show (match parseStep s c with
        | .ok s' => parseChars (cs.filter isCommand) s'
        | .error e => .error e) =
        (match parseStep s c with
        | .ok s' => parseChars cs s'
        | .error e => .error e)
      cases parseStep s c with
      | ok s' => exact ih s'
      | error e => rfl
    | false =>
      rw [List.filter_cons_of_neg (by simp [hc])]
      show parseChars (cs.filter isCommand) s =
        (match parseStep s c with
        | .ok s' => parseChars cs s'
        | .error e => .error e)
      rw [parseStep_comment s c hc]
      exact ih s

/-- C1. The move idiom `[->+<]` is recognized, but the parser appends BOTH
`AddTo(1)` and the original `Loop(body)`: the second match arm of the `]`
branch of `src/parser.rs` pushes `AddTo { offset: x }` and then falls
through to `current_context.push(Instruction::Loop(instructions))`, unlike
the `Clear` arm, which ends in `continue`. The claim (and the spec's
stated intent) that `AddTo(x)` is emitted alone, with no `Loop` for that
body, is therefore false of the code: this theorem evaluates the parser at
the failing input `[->+<]`. -/
theorem claim_C1_move_idiom_emits_addTo_and_loop :
    parse ['[', '-', '>', '+', '<', ']'] =
      .ok [.addTo 1, .loop [.add 255, .move 1, .add 1, .move (-1)]] := rfl

/-- Reduction of the loop-body recognition for a singleton `Add` body. -/
lemma closeTop_single_add (n : Nat) (outer : List Instruction) :
    closeTop [.add n] outer =
      if n &&& 1 = 1 then Instruction.clear :: outer else .loop [.add n] :: outer := by
  unfold closeTop
  simp

/-- Reduction of the loop-body recognition for the move idiom. -/
lemma closeTop_idiom (x y : Int) (outer : List Instruction) :
    closeTop [.add 255, .move x, .add 1, .move y] outer =
      if x = -y then Instruction.loop [.add 255, .move x, .add 1, .move y] :: .addTo x :: outer
      else .loop [.add 255, .move x, .add 1, .move y] :: outer := by
  unfold closeTop
  simp

/-- C3. When a loop closes over the body `[Add(n)]`, the parser pushes
`Clear` instead of `Loop [Add n]` exactly when `n` is odd (`n & 1 == 1`),
and pushes `Loop [Add n]` when `n` is even; in particular `[-]` and `[+]`
both parse to `[Clear]`, and executing `Clear` zeroes the current cell
(for every starting cell contents) without moving the pointer. -/
theorem claim_C3_clear_recognition (n : Nat) (outer : List Instruction)
    (rs : List (List Instruction)) (st : EState) (fuel : Nat) :
    parseStep ⟨[.add n], outer :: rs⟩ ']' =
      .ok ⟨(if n % 2 = 1 then Instruction.clear else .loop [.add n]) :: outer, rs⟩ ∧
    parse ['[', '-', ']'] = .ok [.clear] ∧
    parse ['[', '+', ']'] = .ok [.clear] ∧
    resultMem (execList fuel [.clear] st) st.index = some 0 ∧
    resultIndex (execList fuel [.clear] st) = some st.index := by
  refine ⟨?_, rfl, rfl, ?_, ?_⟩
  · rw [parseStep_close_cons ⟨[.add n], outer :: rs⟩ outer rs rfl]
    have hrev : (PState.mk [Instruction.add n] (outer :: rs)).top.reverse = [.add n] := by simp
    rw [hrev, closeTop_single_add, Nat.and_one_is_mod]
    by_cases h : n % 2 = 1 <;> simp [h]
  · rw [execList_cons, execIns_clear]
    simp [execList_nil, resultMem, setMem]
  · rw [execList_cons, execIns_clear]
    simp [execList_nil, resultIndex]

/-- C4. Characterization of the parser's outcomes by bracket structure:
`parse` fails with `UnexpectedToken` exactly when a `]` is read with the
context stack at depth 1 (no loop open, `bracketScan` verdict
`strayClose`), fails with `IncompleteLoop` exactly when no such `]`
occurs but input ends with a context still open (verdict `openLeft`),
and succeeds on every other input (verdict `balanced`). -/
theorem claim_C4_error_characterization (src : List Char) :
    (parse src = .error .unexpectedToken ↔ bracketScan src 0 = .strayClose) ∧
    (parse src = .error .incompleteLoop ↔ bracketScan src 0 = .openLeft) ∧
    ((∃ out, parse src = .ok out) ↔ bracketScan src 0 = .balanced) := by
  have hb := parseChars_bracket src ⟨[], []⟩
  have hlen : (PState.mk [] []).rest.length = 0 := rfl
  rw [hlen] at hb
  rcases hscan : bracketScan src 0 with _ | _ | _ <;> rw [hscan] at hb
  · obtain ⟨s', hs', hrest⟩ := hb
    have hrest' : s'.rest = [] := List.length_eq_zero.mp hrest
    have hok : parse src = .ok s'.top.reverse := by
      unfold parse
      rw [hs']
      simp [hrest']
    rw [hok]
    refine ⟨?_, ?_, ?_⟩ <;> simp
  · have herr : parse src = .error .unexpectedToken := by
      unfold parse
      rw [hb]
    rw [herr]
    refine ⟨?_, ?_, ?_⟩ <;> simp
  · obtain ⟨s', hs', hrest⟩ := hb
    obtain ⟨l, ls, hrest'⟩ : ∃ l ls, s'.rest = l :: ls := by
      rcases hr : s'.rest with _ | ⟨l, ls⟩
      · exact absurd (by rw [hr]; rfl) hrest
      · exact ⟨l, ls, rfl⟩
    have herr : parse src = .error .incompleteLoop := by
      unfold parse
      rw [hs']
      simp [hrest']
    rw [herr]
    refine ⟨?_, ?_, ?_⟩ <;> simp

/-- C7. Parsing a source string gives exactly the same result (same
instruction sequence or same error) as parsing the string with every
non-command character deleted: comment characters hit the `_ => continue`
arm and leave the parser state untouched. -/
theorem claim_C7_comments_ignored (src : List Char) :
    parse src = parse (src.filter isCommand) := by
  unfold parse
  rw [parseChars_filter]

/-! Machinery for claim C5: no two adjacent `Move`s and no two adjacent
`Add`s anywhere in the parsed output, loop bodies included. -/

/-- Two instructions may sit next to each other in fused output unless they
are both `Move` or both `Add`. -/
def fusedPair : Instruction → Instruction → Bool
  | .move _, .move _ => false
  | .add _, .add _ => false
  | _, _ => true

/-- Adjacency check between a new head and the list it is consed onto. -/
def consOk : Instruction → List Instruction → Bool
  | i, j :: _ => fusedPair i j
  | _, [] => true

mutual

/-- Instruction-level fusion invariant: a loop body must be well fused. -/
def wellFusedIns : Instruction → Bool
  | .loop body => wellFused body
  | _ => true
termination_by i => sizeOf i

/-- Sequence-level fusion invariant: every adjacent pair is allowed and
every member's loop bodies (recursively) satisfy the same. -/
def wellFused : List Instruction → Bool
  | [] => true
  | i :: t => wellFusedIns i && consOk i t && wellFused t
termination_by l => sizeOf l

end

lemma fusedPair_symm (a b : Instruction) : fusedPair a b = fusedPair b a := by
  cases a <;> cases b <;> rfl

lemma fusedPair_write_left (j : Instruction) : fusedPair .write j = true := by
  cases j <;> rfl

lemma fusedPair_read_left (j : Instruction) : fusedPair .read j = true := by
  cases j <;> rfl

lemma fusedPair_clear_left (j : Instruction) : fusedPair .clear j = true := by
  cases j <;> rfl

lemma fusedPair_addTo_left (x : Int) (j : Instruction) : fusedPair (.addTo x) j = true := by
  cases j <;> rfl

lemma fusedPair_loop_left (b : List Instruction) (j : Instruction) :
    fusedPair (.loop b) j = true := by
  cases j <;> rfl

lemma consOk_move_congr (n m : Int) (t : List Instruction) :
    consOk (.move m) t = consOk (.move n) t := by
  rcases t with _ | ⟨j, t⟩
  · rfl
  · show fusedPair (.move m) j = fusedPair (.move n) j
    cases j <;> rfl

lemma consOk_add_congr (n m : Nat) (t : List Instruction) :
    consOk (.add m) t = consOk (.add n) t := by
  rcases t with _ | ⟨j, t⟩
  · rfl
  · show fusedPair (.add m) j = fusedPair (.add n) j
    cases j <;> rfl

lemma wellFused_nil : wellFused [] = true := by simp [wellFused]

lemma wellFused_cons_of (i : Instruction) (l : List Instruction) (hi : wellFusedIns i = true)
    (hc : consOk i l = true) (hl : wellFused l = true) : wellFused (i :: l) = true := by
  simp [wellFused, hi, hc, hl]

lemma wellFused_cons_elim (i : Instruction) (l : List Instruction)
    (h : wellFused (i :: l) = true) :
    wellFusedIns i = true ∧ consOk i l = true ∧ wellFused l = true := by
  rw [wellFused] at h
  simp only [Bool.and_eq_true] at h
  exact ⟨h.1.1, h.1.2, h.2⟩

/-- Last-element adjacency check, used to push one element at the end. -/
def endOk : List Instruction → Instruction → Bool
  | l, a =>
    match l.getLast? with
    | none => true
    | some j => fusedPair j a

lemma endOk_nil (a : Instruction) : endOk [] a = true := rfl

lemma endOk_cons (i : Instruction) (t : List Instruction) (a : Instruction) :
    endOk (i :: t) a = (match t with | [] => fusedPair i a | _ :: _ => endOk t a) := by
  rcases t with _ | ⟨j, t⟩
  · rfl
  · show (match (i :: j :: t).getLast? with
      | none => true
      | some j => fusedPair j a) = endOk (j :: t) a
    rw [List.getLast?_cons_cons]
    rfl

lemma wellFused_append_one (a : Instruction) :
    ∀ l, wellFused (l ++ [a]) = (wellFused l && endOk l a && wellFusedIns a) := by
  intro l
  induction l with
  | nil =>
    rw [List.nil_append, Bool.eq_iff_iff]
    simp [wellFused, consOk, endOk]
  | cons i t ih =>
    rw [List.cons_append, wellFused, ih, wellFused, endOk_cons, Bool.eq_iff_iff]
    rcases t with _ | ⟨j, t'⟩
    · simp only [List.nil_append, consOk, wellFused, Bool.and_eq_true, Bool.and_true,
        and_true, true_and]
      tauto
    · have hco : consOk i (j :: t' ++ [a]) = consOk i (j :: t') := rfl
      rw [hco]
      simp only [Bool.and_eq_true]
      tauto

lemma wellFused_reverse : ∀ l, wellFused l.reverse = wellFused l := by
  intro l
  induction l with
  | nil => rfl
  | cons i t ih =>
    rw [List.reverse_cons, wellFused_append_one, ih, wellFused]
    have hend : endOk t.reverse i = consOk i t := by
      show (match t.reverse.getLast? with
        | none => true
        | some j => fusedPair j i) = consOk i t
      rw [List.getLast?_reverse]
      rcases t with _ | ⟨j, t'⟩
      · rfl
      · show fusedPair j i = fusedPair i j
        exact (fusedPair_symm i j).symm
    rw [hend, Bool.eq_iff_iff]
    simp only [Bool.and_eq_true]
    tauto

/-- Contexts on the parser stack, in their stored (reversed) order, all
satisfy the fusion invariant. -/
def StackOk (s : PState) : Prop :=
  wellFused s.top = true ∧ ∀ l ∈ s.rest, wellFused l = true

lemma wellFusedIns_loop (b : List Instruction) : wellFusedIns (.loop b) = wellFused b := by
  simp [wellFusedIns]

lemma closeTop_wellFused (body outer : List Instruction)
    (hb : wellFused body = true) (ho : wellFused outer = true) :
    wellFused (closeTop body outer) = true := by
  have hloop : wellFused (Instruction.loop body :: outer) = true := by
    refine wellFused_cons_of _ _ ?_ ?_ ho
    · rw [wellFusedIns_loop]
      exact hb
    · rcases outer with _ | ⟨j, o⟩
      · rfl
      · exact fusedPair_loop_left body j
  unfold closeTop
  split
  · split_ifs
    · refine wellFused_cons_of _ _ (by simp [wellFusedIns]) ?_ ho
      rcases outer with _ | ⟨j, o⟩
      · rfl
      · exact fusedPair_clear_left j
    · exact hloop
  · rename_i x y
    split_ifs
    · refine wellFused_cons_of _ _ (by rw [wellFusedIns_loop]; exact hb) rfl ?_
      refine wellFused_cons_of _ _ (by simp [wellFusedIns]) ?_ ho
      rcases outer with _ | ⟨j, o⟩
      · rfl
      · exact fusedPair_addTo_left x j
    · exact hloop
  · exact hloop

lemma parseStep_stackOk (s : PState) (c : Char) (s' : PState)
    (h : parseStep s c = .ok s') (hs : StackOk s) : StackOk s' := by
  obtain ⟨htop, hrest⟩ := hs
  unfold parseStep at h
  split_ifs at h with e1 e2 e3 e4 e5 e6 e7 e8
  · rcases hm : s.top with _ | ⟨i, t⟩ <;> rw [hm] at h htop
    · injection h with h
      subst h
      exact ⟨wellFused_cons_of _ _ (by simp [wellFusedIns]) rfl wellFused_nil, hrest⟩
    · cases i <;> injection h with h <;> subst h
      · obtain ⟨hi, hc, ht⟩ := wellFused_cons_elim _ _ htop
        rename_i n
        refine ⟨wellFused_cons_of _ _ (by simp [wellFusedIns]) ?_ ht, hrest⟩
        rw [consOk_move_congr n]
        exact hc
      all_goals
        exact ⟨wellFused_cons_of _ _ (by simp [wellFusedIns]) rfl htop, hrest⟩
  · rcases hm : s.top with _ | ⟨i, t⟩ <;> rw [hm] at h htop
    · injection h with h
      subst h
      exact ⟨wellFused_cons_of _ _ (by simp [wellFusedIns]) rfl wellFused_nil, hrest⟩
    · cases i <;> injection h with h <;> subst h
      · obtain ⟨hi, hc, ht⟩ := wellFused_cons_elim _ _ htop
        rename_i n
        refine ⟨wellFused_cons_of _ _ (by simp [wellFusedIns]) ?_ ht, hrest⟩
        rw [consOk_move_congr n]
        exact hc
      all_goals
        exact ⟨wellFused_cons_of _ _ (by simp [wellFusedIns]) rfl htop, hrest⟩
  · rcases hm : s.top with _ | ⟨i, t⟩ <;> rw [hm] at h htop
    · injection h with h
      subst h
      exact ⟨wellFused_cons_of _ _ (by simp [wellFusedIns]) rfl wellFused_nil, hrest⟩
    · cases i <;> injection h with h <;> subst h
      · exact ⟨wellFused_cons_of _ _ (by simp [wellFusedIns]) rfl htop, hrest⟩
      · obtain ⟨hi, hc, ht⟩ := wellFused_cons_elim _ _ htop
        rename_i n
        refine ⟨wellFused_cons_of _ _ (by simp [wellFusedIns]) ?_ ht, hrest⟩
        rw [consOk_add_congr n]
        exact hc
      all_goals
        exact ⟨wellFused_cons_of _ _ (by simp [wellFusedIns]) rfl htop, hrest⟩
  · rcases hm : s.top with _ | ⟨i, t⟩ <;> rw [hm] at h htop
    · injection h with h
      subst h
      exact ⟨wellFused_cons_of _ _ (by simp [wellFusedIns]) rfl wellFused_nil, hrest⟩
    · cases i <;> injection h with h <;> subst h
      · exact ⟨wellFused_cons_of _ _ (by simp [wellFusedIns]) rfl htop, hrest⟩
      · obtain ⟨hi, hc, ht⟩ := wellFused_cons_elim _ _ htop
        rename_i n
        refine ⟨wellFused_cons_of _ _ (by simp [wellFusedIns]) ?_ ht, hrest⟩
        rw [consOk_add_congr n]
        exact hc
      all_goals
        exact ⟨wellFused_cons_of _ _ (by simp [wellFusedIns]) rfl htop, hrest⟩
  · injection h with h
    subst h
    refine ⟨wellFused_cons_of _ _ (by simp [wellFusedIns]) ?_ htop, hrest⟩
    rcases s.top with _ | ⟨j, t⟩
    · rfl
    · exact fusedPair_write_left j
  · injection h with h
    subst h
    refine ⟨wellFused_cons_of _ _ (by simp [wellFusedIns]) ?_ htop, hrest⟩
    rcases s.top with _ | ⟨j, t⟩
    · rfl
    · exact fusedPair_read_left j
  · injection h with h
    subst h
    refine ⟨wellFused_nil, ?_⟩
    intro l hl
    rcases List.mem_cons.mp hl with hl1 | hl1
    · subst hl1
      exact htop
    · exact hrest l hl1
  · rcases hr : s.rest with _ | ⟨outer, rs⟩ <;> rw [hr] at h
    · cases h
    · injection h with h
      subst h
      refine ⟨?_, ?_⟩
      · exact closeTop_wellFused _ _ (by rw [wellFused_reverse]; exact htop)
          (hrest outer (by rw [hr]; exact List.mem_cons_self _ _))
      · intro l hl
        exact hrest l (by rw [hr]; exact List.mem_cons_of_mem _ hl)
  · injection h with h
    subst h
    exact ⟨htop, hrest⟩

lemma parseChars_stackOk : ∀ (cs : List Char) (s s' : PState),
    StackOk s → parseChars cs s = .ok s' → StackOk s' := by
  intro cs
  induction cs with
  | nil =>
    intro s s' hs h
    injection h with h
    subst h
    exact hs
  | cons c cs ih =>
    intro s s' hs h
    show StackOk s'
    rcases hstep : parseStep s c with e | s1
    · rw [parseChars, hstep] at h
      cases h
    · have h' : parseChars cs s1 = .ok s' := by
        rw [parseChars, hstep] at h
        exact h
      exact ih s1 s' (parseStep_stackOk s c s1 hstep hs) h'

/-- C5. Every successfully parsed instruction sequence, and recursively
every `Loop` body inside it, never contains two adjacent `Move`
instructions nor two adjacent `Add` instructions: the fusion branches of
the parser replace the last instruction in place instead of pushing a
second `Move`/`Add` next to one. -/
theorem claim_C5_no_adjacent_fused (src : List Char) (out : List Instruction)
    (h : parse src = .ok out) : wellFused out = true := by
  unfold parse at h
  rcases hpc : parseChars src ⟨[], []⟩ with e | s <;> rw [hpc] at h
  case error => cases h
  case ok =>
    have hs : StackOk s :=
      parseChars_stackOk src ⟨[], []⟩ s ⟨wellFused_nil, by intro l hl; cases hl⟩ hpc
    have h2 : (match s.rest with
      | [] => Except.ok s.top.reverse
      | _ :: _ => Except.error ParserError.incompleteLoop) = .ok out := h
    rcases hr : s.rest with _ | ⟨l, ls⟩ <;> rw [hr] at h2
    · injection h2 with h2
      subst h2
      rw [wellFused_reverse]
      exact hs.1
    · cases h2

/-- Witness for C5 at the concrete source `+>+`. -/
theorem claim_C5_witness : wellFused [.add 1, .move 1, .add 1] = true :=
  claim_C5_no_adjacent_fused ['+', '>', '+'] [.add 1, .move 1, .add 1] rfl

/-- C6. For every signed offset and every data-pointer position below
30000, executing `Move(delta)` puts the pointer at `moveIndex p delta`,
which is again below 30000, and executing `Move(delta)` then
`Move(-delta)` returns the pointer to where it started. -/
theorem claim_C6_move_roundtrip (delta : Int) (p : Nat) (st : EState) (fuel : Nat)
    (hp : p < 30000) (hidx : st.index = p) :
    resultIndex (execIns fuel (.move delta) st) = some (moveIndex p delta) ∧
    moveIndex p delta < 30000 ∧
    resultIndex (execList fuel [.move delta, .move (-delta)] st) = some p := by
  refine ⟨?_, moveIndex_lt p delta, ?_⟩
  · rw [execIns_move, hidx]
    rfl
  · rw [execList_cons, execIns_move]
    simp only []
    rw [execList_cons, execIns_move]
    simp only []
    rw [execList_nil]
    show some (moveIndex (moveIndex st.index delta) (-delta)) = some p
    rw [hidx, moveIndex_roundtrip p delta hp]

/-- Witness for C6 at `delta = -7`, `p = 3`. -/
theorem claim_C6_witness :
    resultIndex (execIns 0 (.move (-7)) ⟨fun _ => 0, 3, [], []⟩) = some (moveIndex 3 (-7)) ∧
    moveIndex 3 (-7) < 30000 ∧
    resultIndex (execList 0 [.move (-7), .move (-(-7))] ⟨fun _ => 0, 3, [], []⟩) = some 3 :=
  claim_C6_move_roundtrip (-7) 3 ⟨fun _ => 0, 3, [], []⟩ 0 (by decide) rfl

/-- C9. A run of `k + 256` plus signs parses to the single instruction
`Add(k)` (the parser fuses the run with 8-bit wrap-around), a run of `k`
plus signs parses to `Add(k)` as well (or to the empty sequence when
`k = 0`), and executing either result leaves the same cell value
`(cell + k) mod 256`: the interpreter's `Add` is a wrapping 8-bit
addition. -/
theorem claim_C9_add_wraps (k : Nat) (st : EState) (fuel : Nat)
    (hk : k ≤ 255) (hcell : st.memory st.index < 256) :
    parse (List.replicate (k + 256) '+') = .ok [.add k] ∧
    parse (List.replicate k '+') = .ok (if k = 0 then [] else [.add k]) ∧
    resultMem (execList fuel [.add k] st) st.index = some ((st.memory st.index + k) % 256) ∧
    resultMem (execList fuel (if k = 0 then [] else [.add k]) st) st.index =
      some ((st.memory st.index + k) % 256) := by
  have hexec : resultMem (execList fuel [.add k] st) st.index =
      some ((st.memory st.index + k) % 256) := by
    rw [execList_cons, execIns_add]
    simp [execList_nil, resultMem, setMem]
  refine ⟨?_, ?_, hexec, ?_⟩
  · have h := parse_plusRun (k + 256) (by omega)
    rwa [show (k + 256) % 256 = k by omega] at h
  · rcases Nat.eq_zero_or_pos k with hk0 | hk1
    · subst hk0
      rfl
    · have h := parse_plusRun k hk1
      rw [show k % 256 = k by omega] at h
      rw [h, if_neg (by omega)]
  · rcases Nat.eq_zero_or_pos k with hk0 | hk1
    · subst hk0
      rw [if_pos rfl, execList_nil]
      show some (st.memory st.index) = some ((st.memory st.index + 0) % 256)
      rw [Nat.add_zero, Nat.mod_eq_of_lt hcell]
    · rw [if_neg (by omega)]
      exact hexec

/-- Witness for C9 at `k = 3` on a tape holding 7 in the current cell. -/
theorem claim_C9_witness :
    parse (List.replicate (3 + 256) '+') = .ok [.add 3] ∧
    parse (List.replicate 3 '+') = .ok (if 3 = 0 then [] else [.add 3]) ∧
    resultMem (execList 0 [.add 3] ⟨fun _ => 7, 0, [], []⟩) 0 = some ((7 + 3) % 256) ∧
    resultMem (execList 0 (if 3 = 0 then [] else [.add 3]) ⟨fun _ => 7, 0, [], []⟩) 0 =
      some ((7 + 3) % 256) :=
  claim_C9_add_wraps 3 ⟨fun _ => 7, 0, [], []⟩ 0 (by decide) (by decide)

/-! Machinery for claim C10: the data-pointer index stays in bounds. -/

lemma execIns_write_eq (fuel : Nat) (st : EState) :
    execIns fuel .write st = .ok { st with output := st.output ++ [st.memory st.index] } := by
  simp [execIns]

lemma execIns_read_eq (fuel : Nat) (st : EState) :
    execIns fuel .read st =
      match st.input with
      | [] => .runtimeError
      | b :: bs => .ok { st with memory := setMem st.memory st.index b, input := bs } := by
  simp [execIns]

lemma execIns_loop_zero (body : List Instruction) (st : EState) :
    execIns 0 (.loop body) st =
      if st.memory st.index = 0 then .ok st else .outOfFuel := by
  simp [execIns]

lemma execIns_loop_succ (fuel : Nat) (body : List Instruction) (st : EState) :
    execIns (fuel + 1) (.loop body) st =
      if st.memory st.index = 0 then .ok st
      else
        match execList fuel body st with
        | .ok st' => execIns fuel (.loop body) st'
        | r => r := by
  simp [execIns]

/-- Bounds side condition carried through execution results: a successful
result's data pointer is a legal tape index. -/
def indexOk : ExecResult → Prop
  | .ok st => st.index < 30000
  | _ => True

lemma exec_index_invariant : ∀ fuel : Nat,
    (∀ (i : Instruction) (st : EState), st.index < 30000 → indexOk (execIns fuel i st)) ∧
    (∀ (l : List Instruction) (st : EState), st.index < 30000 → indexOk (execList fuel l st)) := by
  intro fuel
  induction fuel with
  | zero =>
    have hIns : ∀ (i : Instruction) (st : EState), st.index < 30000 → indexOk (execIns 0 i st) := by
      intro i st h
      cases i with
      | move d =>
        rw [execIns_move]
        exact moveIndex_lt st.index d
      | add n =>
        rw [execIns_add]
        exact h
      | write =>
        rw [execIns_write_eq]
        exact h
      | read =>
        rw [execIns_read_eq]
        rcases st.input with _ | ⟨b, bs⟩
        · exact trivial
        · exact h
      | loop body =>
        rw [execIns_loop_zero]
        split
        · exact h
        · exact trivial
      | clear =>
        rw [execIns_clear]
        exact h
      | addTo off =>
        rw [execIns_addTo]
        exact h
    refine ⟨hIns, ?_⟩
    intro l
    induction l with
    | nil =>
      intro st h
      rw [execList_nil]
      exact h
    | cons i rest ihl =>
      intro st h
      rw [execList_cons]
      rcases he : execIns 0 i st with st' | _ | _
      · have hok := hIns i st h
        rw [he] at hok
        exact ihl st' hok
      · exact trivial
      · exact trivial
  | succ n ih =>
    have hIns : ∀ (i : Instruction) (st : EState), st.index < 30000 →
        indexOk (execIns (n + 1) i st) := by
      intro i st h
      cases i with
      | move d =>
        rw [execIns_move]
        exact moveIndex_lt st.index d
      | add m =>
        rw [execIns_add]
        exact h
      | write =>
        rw [execIns_write_eq]
        exact h
      | read =>
        rw [execIns_read_eq]
        rcases st.input with _ | ⟨b, bs⟩
        · exact trivial
        · exact h
      | loop body =>
        rw [execIns_loop_succ]
        split
        · exact h
        · rcases he : execList n body st with st' | _ | _
          · have hok := ih.2 body st h
            rw [he] at hok
            exact ih.1 (.loop body) st' hok
          · exact trivial
          · exact trivial
      | clear =>
        rw [execIns_clear]
        exact h
      | addTo off =>
        rw [execIns_addTo]
        exact h
    refine ⟨hIns, ?_⟩
    intro l
    induction l with
    | nil =>
      intro st h
      rw [execList_nil]
      exact h
    | cons i rest ihl =>
      intro st h
      rw [execList_cons]
      rcases he : execIns (n + 1) i st with st' | _ | _
      · have hok := hIns i st h
        rw [he] at hok
        exact ihl st' hok
      · exact trivial
      · exact trivial

/-- C10. Starting from a fresh executor (`Executor::new`, index 0), any
instruction sequence that runs to completion leaves the data pointer in
`[0, 30000)`; more generally the bound `index < 30000` is preserved by
execution from any state satisfying it, and the normalized target of a
`Move` or `AddTo` is always in `[0, 30000)`, so every tape access of
`Executor::_execute` is in bounds. -/
theorem claim_C10_index_in_bounds :
    (∀ (inp : List Nat) (fuel : Nat) (l : List Instruction),
      indexOk (execList fuel l (Executor.new inp))) ∧
    (∀ (fuel : Nat) (l : List Instruction) (st : EState),
      st.index < 30000 → indexOk (execList fuel l st)) ∧
    (∀ (p : Nat) (d : Int), moveIndex p d < 30000) := by
  refine ⟨?_, ?_, fun p d => moveIndex_lt p d⟩
  · intro inp fuel l
    refine (exec_index_invariant fuel).2 l (Executor.new inp) ?_
    show (0 : Nat) < 30000
    decide
  · intro fuel l st h
    exact (exec_index_invariant fuel).2 l st h

/-- Witness for C10 on a state at index 3 running one `Move(5)`. -/
theorem claim_C10_witness :
    indexOk (execList 0 [.move 5] (⟨fun _ => 0, 3, [], []⟩ : EState)) :=
  claim_C10_index_in_bounds.2.1 0 [.move 5] ⟨fun _ => 0, 3, [], []⟩ (by decide)

/-! Machinery for claim C2: the program `[-` x-times-`>` `+` x-times-`<` `]`. -/

/-- Source text of the move idiom with offset `x`: `[-`, then `x` copies
of `>`, then `+`, then `x` copies of `<`, then `]`. -/
def moveProg (x : Nat) : List Char :=
  '[' :: '-' :: (List.replicate x '>' ++ '+' :: (List.replicate x '<' ++ [']']))

lemma parseChars_moveProg (x' : Nat) :
    parseChars (moveProg (x' + 1)) ⟨[], []⟩ =
      .ok ⟨[.loop [.add 255, .move (1 + (x' : Int)), .add 1, .move (-1 - (x' : Int))],
        .addTo (1 + (x' : Int))], []⟩ := by
  unfold moveProg
  rw [List.replicate_succ, List.replicate_succ, List.cons_append, List.cons_append]
  have step1 : parseChars
      ('[' :: '-' :: '>' :: (List.replicate x' '>' ++
        '+' :: '<' :: (List.replicate x' '<' ++ [']']))) ⟨[], []⟩ =
      parseChars (List.replicate x' '>' ++ '+' :: '<' :: (List.replicate x' '<' ++ [']']))
        ⟨[.move 1, .add 255], [[]]⟩ := rfl
  rw [step1, parseChars_append, parseChars_gtRun x' 1 [.add 255] [[]]]
  have step2 : (match (Except.ok (⟨[.move (1 + (x' : Int)), .add 255], [[]]⟩ : PState) :
        Except ParserError PState) with
      | .ok s' => parseChars ('+' :: '<' :: (List.replicate x' '<' ++ [']'])) s'
      | .error e => Except.error e) =
      parseChars (List.replicate x' '<' ++ [']'])
        ⟨[.move (-1), .add 1, .move (1 + (x' : Int)), .add 255], [[]]⟩ := rfl
  rw [step2, parseChars_append, parseChars_ltRun x' (-1) [.add 1, .move (1 + (x' : Int)), .add 255] [[]]]
  have step3 : (match (Except.ok (⟨[.move (-1 - (x' : Int)), .add 1, .move (1 + (x' : Int)),
        .add 255], [[]]⟩ : PState) : Except ParserError PState) with
      | .ok s' => parseChars [']'] s'
      | .error e => Except.error e) =
      parseChars [']']
        ⟨[.move (-1 - (x' : Int)), .add 1, .move (1 + (x' : Int)), .add 255], [[]]⟩ := rfl
  rw [step3]
  have hclose := parseStep_close_cons
    ⟨[.move (-1 - (x' : Int)), .add 1, .move (1 + (x' : Int)), .add 255], [[]]⟩ [] [] rfl
  have step4 : parseChars [']']
      (⟨[.move (-1 - (x' : Int)), .add 1, .move (1 + (x' : Int)), .add 255], [[]]⟩ : PState) =
      match parseStep
        ⟨[.move (-1 - (x' : Int)), .add 1, .move (1 + (x' : Int)), .add 255], [[]]⟩ ']' with
      | .ok s' => parseChars [] s'
      | .error e => Except.error e := rfl
  rw [step4, hclose]
  have hrev : ([Instruction.move (-1 - (x' : Int)), .add 1, .move (1 + (x' : Int)),
      .add 255] : List Instruction).reverse =
      [.add 255, .move (1 + (x' : Int)), .add 1, .move (-1 - (x' : Int))] := by
    simp
  have step5 : (PState.mk [Instruction.move (-1 - (x' : Int)), .add 1,
      .move (1 + (x' : Int)), .add 255] [[]]).top.reverse =
      [.add 255, .move (1 + (x' : Int)), .add 1, .move (-1 - (x' : Int))] := hrev
  rw [step5, closeTop_idiom, if_pos (by ring)]
  rfl

/-- Parse of the move idiom: one `AddTo(x)` immediately followed by the
original `Loop` (the parser's fall-through keeps the loop). -/
lemma parse_moveProg (x : Nat) (hx : 1 ≤ x) :
    parse (moveProg x) =
      .ok [.addTo (x : Int),
        .loop [.add 255, .move (x : Int), .add 1, .move (-(x : Int))]] := by
  obtain ⟨x', rfl⟩ : ∃ x', x = x' + 1 := ⟨x - 1, by omega⟩
  unfold parse
  rw [parseChars_moveProg]
  have e1 : ((x' + 1 : Nat) : Int) = 1 + (x' : Int) := by push_cast; ring
  rw [e1]
  have e2 : -(1 + (x' : Int)) = -1 - (x' : Int) := by ring
  rw [e2]
  rfl

lemma exec_moveProg (x p a b fuel : Nat) (st : EState) (hx2 : x % 30000 ≠ 0)
    (hp : p < 30000) (hidx : st.index = p) (ha : st.memory p = a)
    (hb : st.memory ((p + x) % 30000) = b) :
    resultIndex (execList fuel [.addTo (x : Int),
      .loop [.add 255, .move (x : Int), .add 1, .move (-(x : Int))]] st) = some p ∧
    resultMem (execList fuel [.addTo (x : Int),
      .loop [.add 255, .move (x : Int), .add 1, .move (-(x : Int))]] st) p = some 0 ∧
    resultMem (execList fuel [.addTo (x : Int),
      .loop [.add 255, .move (x : Int), .add 1, .move (-(x : Int))]] st)
      ((p + x) % 30000) = some ((a + b) % 256) := by
  have hmv : moveIndex st.index (x : Int) = (p + x) % 30000 := by
    rw [hidx, moveIndex_ofNat]
  have hne : (p + x) % 30000 ≠ p := by omega
  have h1 : execIns fuel (.addTo (x : Int)) st =
      .ok { st with memory := setMem (setMem st.memory ((p + x) % 30000) ((b + a) % 256)) p 0 } := by
    rw [execIns_addTo, hmv, hidx, ha, hb]
  have hcell : ({ st with
      memory := setMem (setMem st.memory ((p + x) % 30000) ((b + a) % 256)) p 0 } : EState).memory
      ({ st with
        memory := setMem (setMem st.memory ((p + x) % 30000) ((b + a) % 256)) p 0 } : EState).index = 0 := by
    show setMem (setMem st.memory ((p + x) % 30000) ((b + a) % 256)) p 0 st.index = 0
    rw [hidx]
    exact setMem_same _ _ _
  have h2 : execList fuel [Instruction.addTo (x : Int),
      .loop [.add 255, .move (x : Int), .add 1, .move (-(x : Int))]] st =
      .ok { st with memory := setMem (setMem st.memory ((p + x) % 30000) ((b + a) % 256)) p 0 } := by
    rw [execList_cons, h1]
    show execList fuel [Instruction.loop [.add 255, .move (x : Int), .add 1, .move (-(x : Int))]]
      { st with memory := setMem (setMem st.memory ((p + x) % 30000) ((b + a) % 256)) p 0 } = _
    rw [execList_cons, execIns_loop_exit _ _ _ hcell]
    show execList fuel []
      { st with memory := setMem (setMem st.memory ((p + x) % 30000) ((b + a) % 256)) p 0 } = _
    rw [execList_nil]
  refine ⟨?_, ?_, ?_⟩
  · rw [h2]
    show some st.index = some p
    rw [hidx]
  · rw [h2]
    show some (setMem (setMem st.memory ((p + x) % 30000) ((b + a) % 256)) p 0 p) = some 0
    rw [setMem_same]
  · rw [h2]
    show some (setMem (setMem st.memory ((p + x) % 30000) ((b + a) % 256)) p 0
      ((p + x) % 30000)) = some ((a + b) % 256)
    rw [setMem_other _ _ _ _ hne, setMem_same, Nat.add_comm b a]

/-- C2, amended. For every positive offset `x` that is not a multiple of
the tape size 30000, parsing `[-` `>`^x `+` `<`^x `]` succeeds (producing
`AddTo(x)` followed by the residual `Loop`), and executing the result from
any pointer position `p < 30000` with cell values `a` at `p` and `b` at
`(p + x) % 30000` terminates (for every fuel, the loop body runs zero
times), leaves the pointer at `p`, the cell at `p` holding 0, and the cell
at offset `x` holding `(a + b) % 256`. The original claim's "every offset
`x ≠ 0`" fails when `x` is a nonzero multiple of 30000, because source and
target are then the same cell. -/
theorem claim_C2_amended (x p a b fuel : Nat) (st : EState)
    (hx1 : 1 ≤ x) (hx2 : x % 30000 ≠ 0) (hp : p < 30000) (hidx : st.index = p)
    (ha : st.memory p = a) (hb : st.memory ((p + x) % 30000) = b) :
    parse (moveProg x) =
      .ok [.addTo (x : Int),
        .loop [.add 255, .move (x : Int), .add 1, .move (-(x : Int))]] ∧
    resultIndex (execList fuel [.addTo (x : Int),
      .loop [.add 255, .move (x : Int), .add 1, .move (-(x : Int))]] st) = some p ∧
    resultMem (execList fuel [.addTo (x : Int),
      .loop [.add 255, .move (x : Int), .add 1, .move (-(x : Int))]] st) p = some 0 ∧
    resultMem (execList fuel [.addTo (x : Int),
      .loop [.add 255, .move (x : Int), .add 1, .move (-(x : Int))]] st)
      ((p + x) % 30000) = some ((a + b) % 256) := by
  obtain ⟨hi, hm0, hmx⟩ := exec_moveProg x p a b fuel st hx2 hp hidx ha hb
  exact ⟨parse_moveProg x hx1, hi, hm0, hmx⟩

/-- Witness for the amended C2 at `x = 1`, `(a, b) = (3, 4)`. -/
theorem claim_C2_witness :
    parse (moveProg 1) =
      .ok [.addTo ((1 : Nat) : Int),
        .loop [.add 255, .move ((1 : Nat) : Int), .add 1, .move (-((1 : Nat) : Int))]] ∧
    resultIndex (execList 0 [.addTo ((1 : Nat) : Int),
      .loop [.add 255, .move ((1 : Nat) : Int), .add 1, .move (-((1 : Nat) : Int))]]
      ⟨fun i => if i = 0 then 3 else if i = 1 then 4 else 0, 0, [], []⟩) = some 0 ∧
    resultMem (execList 0 [.addTo ((1 : Nat) : Int),
      .loop [.add 255, .move ((1 : Nat) : Int), .add 1, .move (-((1 : Nat) : Int))]]
      ⟨fun i => if i = 0 then 3 else if i = 1 then 4 else 0, 0, [], []⟩) 0 = some 0 ∧
    resultMem (execList 0 [.addTo ((1 : Nat) : Int),
      .loop [.add 255, .move ((1 : Nat) : Int), .add 1, .move (-((1 : Nat) : Int))]]
      ⟨fun i => if i = 0 then 3 else if i = 1 then 4 else 0, 0, [], []⟩)
      ((0 + 1) % 30000) = some ((3 + 4) % 256) :=
  claim_C2_amended 1 0 3 4 0
    ⟨fun i => if i = 0 then 3 else if i = 1 then 4 else 0, 0, [], []⟩
    (by decide) (by decide) (by decide) rfl (by decide) (by decide)

/-- C2, counterexample to the original claim. At the nonzero offset
`x = 30000` (a multiple of the tape size) with both cells being the single
cell 0 holding `a = b = 1`, the program `[-` `>`^30000 `+` `<`^30000 `]`
parses fine but executing it leaves the cell at offset `x` (which is cell
`(0 + 30000) % 30000 = 0`) holding `0`, not `(a + b) % 256 = 2` as the
claim requires. -/
theorem claim_C2_counterexample :
    parse (moveProg 30000) =
      .ok [.addTo ((30000 : Nat) : Int),
        .loop [.add 255, .move ((30000 : Nat) : Int), .add 1, .move (-((30000 : Nat) : Int))]] ∧
    resultMem (execList 1 [.addTo ((30000 : Nat) : Int),
      .loop [.add 255, .move ((30000 : Nat) : Int), .add 1, .move (-((30000 : Nat) : Int))]]
      ⟨fun i => if i = 0 then 1 else 0, 0, [], []⟩) ((0 + 30000) % 30000) = some 0 ∧
    (1 + 1) % 256 ≠ 0 := by
  refine ⟨parse_moveProg 30000 (by omega), ?_, by decide⟩
  have hmv : moveIndex
      ((⟨fun i => if i = 0 then 1 else 0, 0, [], []⟩ : EState).index)
      ((30000 : Nat) : Int) = 0 := by
    show moveIndex 0 ((30000 : Nat) : Int) = 0
    rw [moveIndex_ofNat]
  have h1 : execIns 1 (.addTo ((30000 : Nat) : Int))
      (⟨fun i => if i = 0 then 1 else 0, 0, [], []⟩ : EState) =
      .ok { (⟨fun i => if i = 0 then 1 else 0, 0, [], []⟩ : EState) with memory := setMem (setMem (fun i => if i = 0 then 1 else 0) 0 ((1 + 1) % 256)) 0 0 } := by
    rw [execIns_addTo, hmv]
    rfl
  have hcell : setMem (setMem (fun i => if i = 0 then 1 else 0) 0 ((1 + 1) % 256)) 0 0 0 = 0 :=
    setMem_same _ _ _
  rw [execList_cons, h1]
  show resultMem (execList 1
    [Instruction.loop [.add 255, .move ((30000 : Nat) : Int), .add 1,
      .move (-((30000 : Nat) : Int))]]
    { memory := setMem (setMem (fun i => if i = 0 then 1 else 0) 0 ((1 + 1) % 256)) 0 0,
      index := 0, input := [], output := [] }) ((0 + 30000) % 30000) = some 0
  rw [execList_cons, execIns_loop_exit _ _ _ hcell]
  show resultMem (execList 1 []
    { memory := setMem (setMem (fun i => if i = 0 then 1 else 0) 0 ((1 + 1) % 256)) 0 0,
      index := 0, input := [], output := [] }) ((0 + 30000) % 30000) = some 0
  rw [execList_nil]
  show some (setMem (setMem (fun i => if i = 0 then 1 else 0) 0 ((1 + 1) % 256)) 0 0
    ((0 + 30000) % 30000)) = some 0
  rw [show (0 + 30000) % 30000 = 0 from by decide, setMem_same]

/-! Model of the JIT driver (`src/compiler.rs`) for claim C8. The dynasm
assembler and the generated machine code are external to the repository,
so their observable outcomes are passed in as parameters: whether
`Assembler::new()` succeeds, whether `finalize()` succeeds, and the
pointer value the generated code leaves in `rax` (null or an I/O error).
The control flow around them is translated from `compile` (lines 79-110)
and `Executable::run` (lines 42-56). -/

/-- Error type of the JIT crate version: `ParseError`, `CompileError`
(assembler failure) and `RuntimeError` (I/O failure); the payloads are
abstracted to numbers. -/
inductive JitError where
  | parseError (e : ParserError)
  | compileError (io : Nat)
  | runtimeError (io : Nat)
deriving DecidableEq

/-- Control flow of `compile`: parse the source (`ParseError` on failure),
then create the assembler (`Assembler::new().map_err(Error::CompileError)`),
then emit code (infallible) and return the executable. `finalize` is NOT
called here; it happens inside `run`. -/
def compile (source : List Char) (newResult : Except Nat Unit) : Except JitError Unit :=
  match parse source with
  | .error e => .error (.parseError e)
  | .ok _ =>
    match newResult with
    | .error io => .error (.compileError io)
    | .ok _ => .ok ()

/-- Control flow of `Executable::run`: `self.code.finalize().unwrap()`
panics when finalization fails — modelled as `none`, no value returned to
the caller — and otherwise the generated code's returned pointer is
inspected: null (`none`) is success, non-null carries an I/O error
returned as `RuntimeError`. -/
def Executable.run (finalizeResult : Except Unit Unit) (codeResult : Option Nat) :
    Option (Except JitError Unit) :=
  match finalizeResult with
  | .error _ => none
  | .ok _ =>
    match codeResult with
    | some io => some (.error (.runtimeError io))
    | none => some (.ok ())

/-- C8, counterexample to the original claim. When finalization fails,
`run` does not return any `CompileError` value (nor any value at all): the
`.unwrap()` on `finalize()` panics, modelled by `none`. -/
theorem claim_C8_counterexample :
    Executable.run (.error ()) none = none ∧
    Option.isSome (Executable.run (.error ()) none) = false := ⟨rfl, rfl⟩

/-- C8, amended. Assembler setup failure during `compile` is returned to
the caller as `CompileError` (on a source that parses); finalization
failure makes `run` panic via `unwrap` instead of returning an error; and
whenever `run` does return a value — in particular after a successful
finalize — that value is `Ok` or a `RuntimeError`, never a `CompileError`
or `ParseError`. -/
theorem claim_C8_amended :
    (∀ (src : List Char) (io : Nat) (i : List Instruction), parse src = .ok i →
      compile src (.error io) = .error (.compileError io)) ∧
    (∀ (fin : Except Unit Unit) (code : Option Nat) (r : Except JitError Unit),
      Executable.run fin code = some r →
      r = .ok () ∨ ∃ io, r = .error (.runtimeError io)) ∧
    (∀ code : Option Nat, Executable.run (.error ()) code = none) ∧
    (∀ code : Option Nat, Executable.run (.ok ()) code ≠ none) := by
  refine ⟨?_, ?_, ?_, ?_⟩
  · intro src io i h
    unfold compile
    rw [h]
  · intro fin code r h
    rcases fin with _ | _
    · cases h
    · rcases code with _ | io
      · injection h with h
        subst h
        exact Or.inl rfl
      · injection h with h
        subst h
        exact Or.inr ⟨io, rfl⟩
  · intro code
    rfl
  · intro code
    rcases code with _ | io <;> simp [Executable.run]

/-- Witness for the amended C8: a one-character program whose assembler
creation fails with error 7. -/
theorem claim_C8_witness :
    compile ['+'] (.error 7) = .error (.compileError 7) :=
  claim_C8_amended.1 ['+'] 7 [.add 1] rfl

end Headache
